import Mathlib

/-!
Verification development for the speech-analysis pipeline.

The definitions below are a shallow embedding of the Python sources:
  * `services/filler_detection.py` — hesitation-sound scanning
    (`_regex_hesitation_fillers`), AI-result validation and merging
    (`detect_filler_words_with_gpt`), filler removal (`remove_filler_words`),
    and relevance checking (`check_answer_relevance_to_title`);
  * `services/confidence_analysis.py` — `calculate_confidence_score`;
  * `services/transcription.py` — the duration resolution in
    `transcribe_audio_file`;
  * `routes/transcription.py` — the off-topic score penalty branch of
    `transcribe_audio`.

Python floats are modelled by exact rationals, Python ints by `Int`/`Nat`,
strings by `String`/`List Char` (ASCII semantics for the case and whitespace
predicates, which is the alphabet the pipeline processes).  Calls to the
external AI capability are modelled by an explicit outcome parameter: the
code under verification only branches on whether the call raised, returned
unparseable content, or returned a parsed payload.
-/

namespace CoachAI

/-- ASCII lower-casing, as `str.lower()` acts on ASCII text. -/
def lowerChar (c : Char) : Char :=
  if 'A' ≤ c ∧ c ≤ 'Z' then Char.ofNat (c.toNat + 32) else c

/-- ASCII upper-casing, as `str.upper()` acts on ASCII text. -/
def upperChar (c : Char) : Char :=
  if 'a' ≤ c ∧ c ≤ 'z' then Char.ofNat (c.toNat - 32) else c

/-- Python regex `\w` (word character), ASCII range: `[a-zA-Z0-9_]`. -/
def wordChar (c : Char) : Bool :=
  c.isAlphanum || c == '_'

/-- Python `\s` / `str.strip()` whitespace, ASCII range:
space, tab, newline, carriage return, vertical tab, form feed. -/
def spaceChar (c : Char) : Bool :=
  c == ' ' || c == '\t' || c == '\n' || c == '\r' ||
    c == Char.ofNat 11 || c == Char.ofNat 12

/-- The punctuation class `[,.;:!?]` used by `remove_filler_words`. -/
def punctChar (c : Char) : Bool :=
  c == ',' || c == '.' || c == ';' || c == ':' || c == '!' || c == '?'

/-- Case-insensitive match of a text character against a lowercase pattern
character (regex `re.IGNORECASE` on ASCII). -/
def charCI (c t : Char) : Bool :=
  lowerChar c == t

/-- `str.strip()`: drop whitespace from both ends. -/
def stripWS (l : List Char) : List Char :=
  ((l.dropWhile spaceChar).reverse.dropWhile spaceChar).reverse

def lowerList (l : List Char) : List Char := l.map lowerChar

/-- A detected filler span: `{"word": ..., "position": ..., "length": ...}`.
`position` is validated non-negative by the code, `length` comes from the
AI payload and may be any integer. -/
structure Filler where
  word : String
  position : Nat
  length : Int
  deriving DecidableEq, Repr

/-! ### The deterministic pass: `_regex_hesitation_fillers`

The Python code runs `re.finditer` with the pattern
`\b(um+|uh+|er+|erm+|ah+|hmm+)\b` (case-insensitive).  Each alternative is a
literal prefix followed by one-or-more repetitions of a single letter; since
every shorter repetition count leaves a word character adjacent to the
trailing `\b`, only the maximal repetition run can match, which the
definitions below exploit to stay structurally recursive. -/

/-- Case-insensitive literal-prefix match of a lowercase pattern
against the text suffix. -/
def matchPrefixCI : List Char → List Char → Bool
  | [], _ => true
  | _ :: _, [] => false
  | p :: ps, c :: cs => charCI c p && matchPrefixCI ps cs

/-- Length of the maximal leading run of characters matching `rep`
case-insensitively (the greedy `+`). -/
def takeRun (rep : Char) : List Char → Nat
  | [] => 0
  | c :: cs => if charCI c rep then takeRun rep cs + 1 else 0

/-- `\b` seen from the left end of the rest of the text: the next character,
if any, must not be a word character (the previous matched character is a
letter). -/
def nextNonWord : List Char → Bool
  | [] => true
  | c :: _ => !wordChar c

/-- One alternative `pfx · rep+` of the hesitation pattern, applied at the
start of `suf`, followed by the closing `\b`.  Returns the match length. -/
def altMatch (pfx : List Char) (rep : Char) (suf : List Char) : Option Nat :=
  if matchPrefixCI pfx suf then
    if 0 < takeRun rep (suf.drop pfx.length) ∧
        nextNonWord (suf.drop (pfx.length + takeRun rep (suf.drop pfx.length))) then
      some (pfx.length + takeRun rep (suf.drop pfx.length))
    else none
  else none

/-- The opening `\b` at position `i`: position 0, or a non-word character
just before (the first matched character is always a letter). -/
def prevNonWord (cs : List Char) : Nat → Bool
  | 0 => true
  | j + 1 =>
    match cs.get? j with
    | some c => !wordChar c
    | none => true

/-- Length of the match of `\b(um+|uh+|er+|erm+|ah+|hmm+)\b` (IGNORECASE)
starting exactly at position `i`, if any, with the alternatives tried in the
pattern's order. -/
def matchLenAt (cs : List Char) (i : Nat) : Option Nat :=
  if prevNonWord cs i then
    (altMatch ['u'] 'm' (cs.drop i)) <|> (altMatch ['u'] 'h' (cs.drop i)) <|>
      (altMatch ['e'] 'r' (cs.drop i)) <|> (altMatch ['e', 'r'] 'm' (cs.drop i)) <|>
      (altMatch ['a'] 'h' (cs.drop i)) <|> (altMatch ['h', 'm'] 'm' (cs.drop i))
  else none

/-- `re.finditer`, fuelled so that the recursion is structural: scan left
to right from position `i`, emitting each match and resuming at its end.
Each step advances `i` by at least 1 (`matchLenAt` never returns 0 — see
`matchLenAt_pos` — the zero guard is dead code), so any fuel exceeding
`cs.length - i` is enough. -/
def scanFillersAux (cs : List Char) : Nat → Nat → List Filler
  | 0, _ => []
  | fuel + 1, i =>
    if i < cs.length then
      match matchLenAt cs i with
      | some L =>
        if L = 0 then []
        else ⟨⟨(cs.drop i).take L⟩, i, (L : Int)⟩ :: scanFillersAux cs fuel (i + L)
      | none => scanFillersAux cs fuel (i + 1)
    else []

def scanFillers (cs : List Char) (i : Nat) : List Filler :=
  scanFillersAux cs (cs.length + 1 - i) i

/-- `_regex_hesitation_fillers(text)`. -/
def regexHesitationFillers (text : String) : List Filler :=
  scanFillers text.data 0

/-! ### `detect_filler_words_with_gpt` -/

/-- One entry of the AI reply's `fillers` list (a JSON object with a word,
a position, and an optional length defaulting to `len(word)`). -/
structure RawFiller where
  word : String
  position : Int
  length : Option Int
  deriving Repr

/-- Outcome of the AI capability call, as far as the code branches on it:
the call raised (`failure`); it returned content from which no JSON list
could be recovered, leaving `filler_words = []` (`unparseable`); or a list
of entries was recovered (`parsed`). -/
inductive GptOutcome where
  | failure
  | unparseable
  | parsed (fillers : List RawFiller)

/-- Python slice `cs[a : b]` with a non-negative start and an arbitrary
integer end (negative ends count from the end, everything is clamped). -/
def pySlice (cs : List Char) (a : Nat) (b : Int) : List Char :=
  (cs.take (if b < 0 then max (b + cs.length) 0 else min b cs.length).toNat).drop a

/-- `word.lower() in actual.lower() or actual.lower() in word.lower()`. -/
def ciOverlap (actual word : List Char) : Prop :=
  (lowerList word) <:+: (lowerList actual) ∨ (lowerList actual) <:+: (lowerList word)

instance (actual word : List Char) : Decidable (ciOverlap actual word) :=
  inferInstanceAs (Decidable (_ ∨ _))

/-- Validation of one AI-suggested filler: position in range, and the text
at the claimed offset must case-insensitively overlap the reported word. -/
def validateFiller (cs : List Char) (f : RawFiller) : Option Filler :=
  if 0 ≤ f.position ∧ f.position < (cs.length : Int) then
    if ciOverlap (stripWS (pySlice cs f.position.toNat
        (f.position + f.length.getD (f.word.length : Int)))) f.word.data then
      some ⟨f.word, f.position.toNat, f.length.getD (f.word.length : Int)⟩
    else none
  else none

def validateFillers (cs : List Char) (raw : List RawFiller) : List Filler :=
  raw.filterMap (validateFiller cs)

/-- Membership of a `(position, length)` key in the accumulated list. -/
def hasKey (l : List Filler) (f : Filler) : Bool :=
  l.any fun g => g.position == f.position && g.length == f.length

/-- Deterministic merge: append every regex span whose `(position, length)`
key is not already present. -/
def mergeRegex (validated regexSpans : List Filler) : List Filler :=
  regexSpans.foldl (fun acc f => if hasKey acc f then acc else acc ++ [f]) validated

/-- The ascending, stable sort `sorted(validated_fillers, key position)`. -/
def posLE (a b : Filler) : Prop := a.position ≤ b.position

instance : DecidableRel posLE := fun a b => inferInstanceAs (Decidable (a.position ≤ b.position))

instance : IsTotal Filler posLE := ⟨fun a b => Nat.le_total a.position b.position⟩

instance : IsTrans Filler posLE := ⟨fun _ _ _ h₁ h₂ => Nat.le_trans h₁ h₂⟩

/-- The greedy overlap-removal scan (`last_end` starts at `-1`). -/
def resolveOverlaps : List Filler → Int → List Filler
  | [], _ => []
  | f :: rest, lastEnd =>
    if lastEnd ≤ (f.position : Int) then
      f :: resolveOverlaps rest ((f.position : Int) + f.length)
    else resolveOverlaps rest lastEnd

/-- The body of `detect_filler_words_with_gpt` after the reply has been
reduced to a `filler_words` list: validate, merge with the deterministic
pass, sort by position, and drop overlaps. -/
def detectCore (text : String) (raw : List RawFiller) : List Filler :=
  resolveOverlaps
    (List.insertionSort posLE
      (mergeRegex (validateFillers text.data raw) (regexHesitationFillers text)))
    (-1)

/-- `detect_filler_words_with_gpt(text)`: an exception anywhere in the call
is caught and yields `[]`; otherwise the pipeline runs on the recovered
`filler_words` list (empty when the reply was unparseable). -/
def detectFillerWords (text : String) (gpt : GptOutcome) : List Filler :=
  match gpt with
  | .failure => []
  | .unparseable => detectCore text []
  | .parsed raw => detectCore text raw

/-! ### `remove_filler_words` -/

/-- `re.sub(r'\s+', ' ', s)` to be applied through `collapseWS`: each
maximal whitespace run becomes one space.  `inRun` records whether the
current position is inside a run whose single `' '` has already been
emitted. -/
def collapseWSAux (inRun : Bool) : List Char → List Char
  | [] => []
  | c :: rest =>
    if spaceChar c then
      if inRun then collapseWSAux true rest else ' ' :: collapseWSAux true rest
    else c :: collapseWSAux false rest

def collapseWS (l : List Char) : List Char := collapseWSAux false l

/-- `re.sub(r'\s+([,.;:!?])', r'\1', s)` to be applied through
`dropSpaceBeforePunct`: a whitespace run directly before a punctuation
character is deleted; a run not followed by punctuation is kept verbatim
(no match of `\s+[,.;:!?]` can start inside it).  `run` carries the
whitespace run read so far and not yet committed. -/
def dropSpaceBeforePunctAux (run : List Char) : List Char → List Char
  | [] => run
  | c :: rest =>
    if spaceChar c then dropSpaceBeforePunctAux (run ++ [c]) rest
    else if punctChar c ∧ run ≠ [] then c :: dropSpaceBeforePunctAux [] rest
    else run ++ (c :: dropSpaceBeforePunctAux [] rest)

def dropSpaceBeforePunct (l : List Char) : List Char := dropSpaceBeforePunctAux [] l

/-- `re.sub(r'([,.;:!?])\s+', r'\1 ', s)` to be applied through
`normalizeAfterPunct`: a punctuation character followed by a whitespace run
is replaced by the punctuation and exactly one space.  `skip` records that
the replacement just happened and the rest of the run is being consumed. -/
def normalizeAfterPunctAux (skip : Bool) : List Char → List Char
  | [] => []
  | c :: rest =>
    if skip && spaceChar c then normalizeAfterPunctAux true rest
    else if punctChar c && (match rest with | d :: _ => spaceChar d | [] => false) then
      c :: ' ' :: normalizeAfterPunctAux true rest
    else c :: normalizeAfterPunctAux false rest

def normalizeAfterPunct (l : List Char) : List Char := normalizeAfterPunctAux false l

/-- The cleanup applied after each single removal: collapse whitespace, fix
spacing around punctuation, strip the ends. -/
def cleanupPass (s : List Char) : List Char :=
  stripWS (normalizeAfterPunct (dropSpaceBeforePunct (collapseWS s)))

/-- Python slice `cs[e :]` for an arbitrary integer `e`. -/
def pyDropFrom (cs : List Char) (e : Int) : List Char :=
  if e < 0 then cs.drop (max (e + cs.length) 0).toNat else cs.drop e.toNat

/-- One iteration of the removal loop:
`result = result[:start] + result[end:]` followed by the cleanup
substitutions and `strip()`. -/
def removeOne (res : List Char) (f : Filler) : List Char :=
  cleanupPass (res.take f.position ++ pyDropFrom res ((f.position : Int) + f.length))

/-- The descending, stable sort
`sorted(filler_positions, key position, reverse=True)`. -/
def posGE (a b : Filler) : Prop := b.position ≤ a.position

instance : DecidableRel posGE := fun a b => inferInstanceAs (Decidable (b.position ≤ a.position))

instance : IsTotal Filler posGE := ⟨fun a b => (Nat.le_total a.position b.position).symm⟩

instance : IsTrans Filler posGE := ⟨fun _ _ _ h₁ h₂ => Nat.le_trans h₂ h₁⟩

/-- `remove_filler_words(text, filler_positions)`. -/
def removeFillerWords (text : String) (spans : List Filler) : String :=
  ⟨(List.insertionSort posGE spans).foldl removeOne text.data⟩

/-! ### `calculate_confidence_score` -/

/-- Round half to even (Python's `round`), at integer precision. -/
def roundHalfEven (x : ℚ) : ℤ :=
  if x - ⌊x⌋ < 1 / 2 then ⌊x⌋
  else if 1 / 2 < x - ⌊x⌋ then ⌊x⌋ + 1
  else if ⌊x⌋ % 2 = 0 then ⌊x⌋ else ⌊x⌋ + 1

/-- Python `round(x, 2)`. -/
def round2 (x : ℚ) : ℚ :=
  (roundHalfEven (x * 100) : ℚ) / 100

/-- The result record of `calculate_confidence_score` (the recommendation
strings come from the external text-generation capability and are carried
through opaquely). -/
structure ScoreBundle where
  confidence_score : ℚ
  wpm_score : ℚ
  filler_score : ℚ
  pause_score : ℚ
  hesitation_score : ℚ
  overall_rating : String
  recommendations : List String
  deriving Repr, DecidableEq

/-- Component 1: the WPM score branch ladder. -/
def wpmScore (wpm : ℚ) : ℚ :=
  if 130 ≤ wpm ∧ wpm ≤ 150 then 100
  else if 115 ≤ wpm ∧ wpm < 130 then 70 + ((wpm - 115) / 15) * 30
  else if 150 < wpm ∧ wpm ≤ 165 then 100 - ((wpm - 150) / 15) * 30
  else if 100 ≤ wpm ∧ wpm < 115 then 50 + ((wpm - 100) / 15) * 20
  else if 165 < wpm ∧ wpm ≤ 185 then 70 - ((wpm - 165) / 20) * 40
  else if wpm < 100 then max 0 (50 - ((100 - wpm) / 40) * 50)
  else max 0 (30 - ((wpm - 185) / 30) * 30)

/-- `fillers_per_100 = filler_count / word_count * 100` guarded by
`word_count > 0`. -/
def fillersPer100 (filler_count word_count : Nat) : ℚ :=
  if 0 < word_count then (filler_count : ℚ) / (word_count : ℚ) * 100 else 0

/-- Component 2: the filler-density score branch ladder. -/
def fillerScoreOf (fp : ℚ) : ℚ :=
  if fp ≤ 1 then 100
  else if fp ≤ 2.5 then 75 - ((fp - 1) / 1.5) * 25
  else if fp ≤ 5 then 50 - ((fp - 2.5) / 2.5) * 25
  else if fp ≤ 8 then 25 - ((fp - 5) / 3) * 20
  else max 0 (5 - (fp - 8) * 0.5)

/-- Component 3: the pause-ratio score branch ladder. -/
def pauseScoreOf (pr : ℚ) : ℚ :=
  if pr ≤ 0.05 then 100
  else if pr ≤ 0.10 then 80 - ((pr - 0.05) / 0.05) * 30
  else if pr ≤ 0.18 then 50 - ((pr - 0.10) / 0.08) * 35
  else if pr ≤ 0.28 then 15 - ((pr - 0.18) / 0.10) * 15
  else 0

/-- Component 4: the hesitation-rate score branch ladder. -/
def hesitationScoreOf (hr : ℚ) : ℚ :=
  if hr ≤ 1.5 then 100
  else if hr ≤ 3 then 80 - ((hr - 1.5) / 1.5) * 30
  else if hr ≤ 6 then 50 - ((hr - 3) / 3) * 30
  else if hr ≤ 10 then 20 - ((hr - 6) / 4) * 20
  else 0

/-- The weighted composite, before rounding. -/
def rawConfidence (w f p h fl : ℚ) : ℚ :=
  w * 0.25 + f * 0.25 + p * 0.20 + h * 0.15 + fl * 0.15

/-- The rating threshold ladder, applied to the unrounded composite. -/
def overallRating (c : ℚ) : String :=
  if 90 ≤ c then "Excellent"
  else if 75 ≤ c then "Good"
  else if 58 ≤ c then "Moderate"
  else if 42 ≤ c then "Low"
  else "Very Low"

/-- `calculate_confidence_score` (the two pause/hesitation counters are
consumed only by the recommendation prompt, which is external). -/
def calculateConfidenceScore (wpm : ℚ)
    (filler_count word_count total_pauses total_hesitations : Nat)
    (pause_ratio hesitation_rate fluency_score : ℚ)
    (recommendations : List String) : ScoreBundle :=
  let w := wpmScore wpm
  let f := fillerScoreOf (fillersPer100 filler_count word_count)
  let p := pauseScoreOf pause_ratio
  let h := hesitationScoreOf hesitation_rate
  let c := rawConfidence w f p h fluency_score
  { confidence_score := round2 c
    wpm_score := round2 w
    filler_score := round2 f
    pause_score := round2 p
    hesitation_score := round2 h
    overall_rating := overallRating c
    recommendations := recommendations }

/-! ### The off-topic penalty branch of `transcribe_audio`
(routes/transcription.py). -/

def offTopicRec1 (title : String) : String :=
  "Try to address the challenge topic: \"" ++ title ++
    "\". Speak about the question or key points related to it instead of going off-topic."

def offTopicRec2 : String :=
  "Your response was not related to the given challenge. Next time, stay on topic to get a proper score and feedback."

/-- The wholesale replacement of `confidence_data` when the relevance gate
judged the answer off-topic (`penalty = 0.5`). -/
def applyOffTopicPenalty (title : String) (cd : ScoreBundle) : ScoreBundle :=
  { confidence_score := round2 (min (cd.confidence_score * 0.5) 40)
    wpm_score := round2 (min (cd.wpm_score * 0.5) 50)
    filler_score := round2 (min (cd.filler_score * 0.5) 50)
    pause_score := round2 (min (cd.pause_score * 0.5) 50)
    hesitation_score := round2 (min (cd.hesitation_score * 0.5) 50)
    overall_rating := "Low"
    recommendations := [offTopicRec1 title, offTopicRec2] }

/-! ### Duration resolution in `transcribe_audio_file`
(services/transcription.py). -/

/-- One timed segment of the transcription reply.  `stop` models the
segment's `end` field (`end` is a reserved word here). -/
structure Segment where
  start : ℚ
  stop : ℚ
  deriving Repr, DecidableEq

/-- `speaking_total`: the sum of `max(0, end - start)` over the segments. -/
def speakingTotal (segs : List Segment) : ℚ :=
  segs.foldl (fun acc s => acc + max 0 (s.stop - s.start)) 0

/-- `max(ends)` over a non-empty segment list (0 for the empty list, which
the code never reaches). -/
def maxEnd (segs : List Segment) : ℚ :=
  match segs with
  | [] => 0
  | s :: rest => rest.foldl (fun m x => max m x.stop) s.stop

/-- The `duration_seconds` resolution of `transcribe_audio_file`:
step 1 takes a positive top-level `duration`; step 2, only if the running
value is still `≤ 0`, takes a positive sum of segment lengths; step 3, only
if the value is still `≤ 0`, takes the maximum segment end.  `duration =
none` models an absent or non-numeric top-level field, `segments = none` an
absent or non-list `segments` field. -/
def resolveDurationSeconds (duration : Option ℚ) (segments : Option (List Segment)) : ℚ :=
  let d1 : ℚ :=
    match duration with
    | some d => if 0 < d then d else 0
    | none => 0
  let d2 : ℚ :=
    match segments with
    | some segs =>
      if d1 ≤ 0 ∧ segs ≠ [] then
        if 0 < speakingTotal segs then speakingTotal segs else d1
      else d1
    | none => d1
  match segments with
  | some segs => if d2 ≤ 0 ∧ segs ≠ [] then maxEnd segs else d2
  | none => d2

/-! ### `check_answer_relevance_to_title` -/

/-- `str.startswith` on character lists. -/
def startsWith (pfx l : List Char) : Bool :=
  pfx.isPrefixOf l

/-- `check_answer_relevance_to_title(title, user_text)`: `True` for an
empty title or a blank transcript; on a successful capability call, `True`
iff the stripped, upper-cased reply starts with `"YES"`; `True` when the
call raises (`reply = none`; the reply's content may itself be null,
modelled by `some none`). -/
def checkAnswerRelevance (title userText : String) (reply : Option (Option String)) : Bool :=
  if title.data = [] ∨ stripWS userText.data = [] then true
  else
    match reply with
    | none => true
    | some content =>
      startsWith ['Y', 'E', 'S'] (((stripWS (content.getD "").data).map upperChar))

/-! ### Spec-side counting notions used to state the claims about the
deterministic pass. -/

/-- A word-bounded occurrence of the literal word "um" (case-insensitive)
starting at position `i`: word boundaries on both sides, `u` then `m`. -/
def umWordBoundedAt (cs : List Char) (i : Nat) : Bool :=
  prevNonWord cs i &&
    (match cs.get? i, cs.get? (i + 1) with
     | some a, some b => charCI a 'u' && charCI b 'm'
     | _, _ => false) &&
    nextNonWord (cs.drop (i + 2))

/-- The number of disjoint word-bounded occurrences of "um" in a text
(word-bounded occurrences can never overlap). -/
def umOccurrenceCount (text : String) : Nat :=
  ((List.range text.length).filter (umWordBoundedAt text.data)).length

/-- The number of positions at which the hesitation pattern
`\b(um+|uh+|er+|erm+|ah+|hmm+)\b` matches. -/
def hesitationMatchCount (text : String) : Nat :=
  ((List.range text.length).filter (fun i => (matchLenAt text.data i).isSome)).length

end CoachAI

namespace CoachAI

/-! ## Lemmas -/

lemma roundHalfEven_le_ceil (x : ℚ) : roundHalfEven x ≤ ⌈x⌉ := by
  unfold roundHalfEven
  split_ifs with h1 h2 h3
  · exact Int.floor_le_ceil x
  · have hx : (⌊x⌋ : ℚ) < x := by linarith
    have := Int.lt_ceil.mpr hx
    omega
  · exact Int.floor_le_ceil x
  · have hx : (⌊x⌋ : ℚ) < x := by
      have hr : x - (⌊x⌋ : ℚ) = 1 / 2 := le_antisymm (not_lt.mp h2) (not_lt.mp h1)
      linarith
    have := Int.lt_ceil.mpr hx
    omega

lemma roundHalfEven_intCast (n : ℤ) : roundHalfEven (n : ℚ) = n := by
  unfold roundHalfEven
  rw [Int.floor_intCast]
  have h0 : (n : ℚ) - (n : ℚ) = 0 := by ring
  rw [h0]
  norm_num

lemma round2_intCast (n : ℤ) : round2 (n : ℚ) = n := by
  unfold round2
  have : (n : ℚ) * 100 = ((n * 100 : ℤ) : ℚ) := by push_cast; ring
  rw [this, roundHalfEven_intCast]
  push_cast
  ring

lemma round2_le_intCast (x : ℚ) (n : ℤ) (h : x ≤ (n : ℚ)) : round2 x ≤ (n : ℚ) := by
  unfold round2
  rw [div_le_iff₀ (by norm_num : (0:ℚ) < 100)]
  have h1 : roundHalfEven (x * 100) ≤ ⌈x * 100⌉ := roundHalfEven_le_ceil _
  have h2 : ⌈x * 100⌉ ≤ n * 100 := by
    apply Int.ceil_le.mpr
    push_cast
    nlinarith
  calc ((roundHalfEven (x * 100) : ℚ)) ≤ ((⌈x * 100⌉ : ℤ) : ℚ) := by exact_mod_cast h1
    _ ≤ ((n * 100 : ℤ) : ℚ) := by exact_mod_cast h2
    _ = (n : ℚ) * 100 := by push_cast; ring

lemma fillersPer100_zero (wc : Nat) : fillersPer100 0 wc = 0 := by
  unfold fillersPer100
  split_ifs <;> simp

lemma overallRating_excellent_iff (c : ℚ) : overallRating c = "Excellent" ↔ 90 ≤ c := by
  unfold overallRating
  split_ifs with h1 h2 h3 h4
  · exact ⟨fun _ => h1, fun _ => rfl⟩
  · exact ⟨fun hh => absurd hh (by decide), fun hh => absurd hh h1⟩
  · exact ⟨fun hh => absurd hh (by decide), fun hh => absurd hh h1⟩
  · exact ⟨fun hh => absurd hh (by decide), fun hh => absurd hh h1⟩
  · exact ⟨fun hh => absurd hh (by decide), fun hh => absurd hh h1⟩

lemma overallRating_good_iff (c : ℚ) : overallRating c = "Good" ↔ 75 ≤ c ∧ c < 90 := by
  unfold overallRating
  split_ifs with h1 h2 h3 h4
  · exact ⟨fun hh => absurd hh (by decide), fun hh => absurd h1 (not_le.mpr hh.2)⟩
  · exact ⟨fun _ => ⟨h2, not_le.mp h1⟩, fun _ => rfl⟩
  · exact ⟨fun hh => absurd hh (by decide), fun hh => absurd hh.1 h2⟩
  · exact ⟨fun hh => absurd hh (by decide), fun hh => absurd hh.1 h2⟩
  · exact ⟨fun hh => absurd hh (by decide), fun hh => absurd hh.1 h2⟩

lemma overallRating_moderate_iff (c : ℚ) : overallRating c = "Moderate" ↔ 58 ≤ c ∧ c < 75 := by
  unfold overallRating
  split_ifs with h1 h2 h3 h4
  · exact ⟨fun hh => absurd hh (by decide), fun hh => absurd h1 (not_le.mpr (by linarith [hh.2]))⟩
  · exact ⟨fun hh => absurd hh (by decide), fun hh => absurd h2 (not_le.mpr hh.2)⟩
  · exact ⟨fun _ => ⟨h3, not_le.mp h2⟩, fun _ => rfl⟩
  · exact ⟨fun hh => absurd hh (by decide), fun hh => absurd hh.1 h3⟩
  · exact ⟨fun hh => absurd hh (by decide), fun hh => absurd hh.1 h3⟩

lemma overallRating_low_iff (c : ℚ) : overallRating c = "Low" ↔ 42 ≤ c ∧ c < 58 := by
  unfold overallRating
  split_ifs with h1 h2 h3 h4
  · exact ⟨fun hh => absurd hh (by decide), fun hh => absurd h1 (not_le.mpr (by linarith [hh.2]))⟩
  · exact ⟨fun hh => absurd hh (by decide), fun hh => absurd h2 (not_le.mpr (by linarith [hh.2]))⟩
  · exact ⟨fun hh => absurd hh (by decide), fun hh => absurd h3 (not_le.mpr hh.2)⟩
  · exact ⟨fun _ => ⟨h4, not_le.mp h3⟩, fun _ => rfl⟩
  · exact ⟨fun hh => absurd hh (by decide), fun hh => absurd hh.1 h4⟩

lemma overallRating_very_low_iff (c : ℚ) : overallRating c = "Very Low" ↔ c < 42 := by
  unfold overallRating
  split_ifs with h1 h2 h3 h4
  · exact ⟨fun hh => absurd hh (by decide), fun hh => absurd h1 (not_le.mpr (by linarith))⟩
  · exact ⟨fun hh => absurd hh (by decide), fun hh => absurd h2 (not_le.mpr (by linarith))⟩
  · exact ⟨fun hh => absurd hh (by decide), fun hh => absurd h3 (not_le.mpr (by linarith))⟩
  · exact ⟨fun hh => absurd hh (by decide), fun hh => absurd h4 (not_le.mpr (by linarith))⟩
  · exact ⟨fun _ => not_le.mp h4, fun _ => rfl⟩

/-! ### Character-level facts -/

lemma wordChar_of_upper {c : Char} (h : 'A' ≤ c ∧ c ≤ 'Z') : wordChar c = true := by
  have ha : c.isAlpha = true := by
    simp [Char.isAlpha, Char.isUpper]
    exact Or.inl ⟨Char.le_def.mp h.1, Char.le_def.mp h.2⟩
  unfold wordChar
  simp [Char.isAlphanum, ha]

lemma wordChar_of_charCI {c t : Char} (ht : wordChar t = true) (h : charCI c t = true) :
    wordChar c = true := by
  unfold charCI at h
  have hl : lowerChar c = t := eq_of_beq h
  unfold lowerChar at hl
  split_ifs at hl with hc
  · exact wordChar_of_upper hc
  · rw [hl]; exact ht

lemma spaceChar_eq_false_of_wordChar {c : Char} (h : wordChar c = true) :
    spaceChar c = false := by
  cases hsp : spaceChar c with
  | false => rfl
  | true =>
    exfalso
    unfold spaceChar at hsp
    simp only [Bool.or_eq_true, beq_iff_eq] at hsp
    rcases hsp with ((((h1 | h1) | h1) | h1) | h1) | h1 <;> subst h1 <;>
      exact absurd h (by decide)

/-! ### Facts about the hesitation-pattern matcher -/

lemma matchPrefixCI_length_le :
    ∀ {pfx suf : List Char}, matchPrefixCI pfx suf = true → pfx.length ≤ suf.length := by
  intro pfx
  induction pfx with
  | nil => intro suf _; simp
  | cons p ps ih =>
    intro suf h
    cases suf with
    | nil => exact absurd h (by simp [matchPrefixCI])
    | cons c cs =>
      unfold matchPrefixCI at h
      simp only [Bool.and_eq_true] at h
      have := ih h.2
      simp only [List.length_cons]
      omega

lemma matchPrefixCI_wordChars :
    ∀ {pfx suf : List Char}, (∀ p ∈ pfx, wordChar p = true) → matchPrefixCI pfx suf = true →
      ∀ c ∈ suf.take pfx.length, wordChar c = true := by
  intro pfx
  induction pfx with
  | nil => intro suf _ _ c hc; simp at hc
  | cons p ps ih =>
    intro suf hp h c hc
    cases suf with
    | nil => exact absurd h (by simp [matchPrefixCI])
    | cons d ds =>
      unfold matchPrefixCI at h
      simp only [Bool.and_eq_true] at h
      simp only [List.length_cons, List.take_succ_cons, List.mem_cons] at hc
      rcases hc with hc | hc
      · subst hc
        exact wordChar_of_charCI (hp p (List.mem_cons_self p ps)) h.1
      · exact ih (fun q hq => hp q (List.mem_cons_of_mem p hq)) h.2 c hc

lemma takeRun_le (rep : Char) : ∀ l : List Char, takeRun rep l ≤ l.length := by
  intro l
  induction l with
  | nil => simp [takeRun]
  | cons c cs ih =>
    unfold takeRun
    split_ifs <;> simp <;> omega

lemma takeRun_wordChars {rep : Char} (hrep : wordChar rep = true) :
    ∀ l : List Char, ∀ c ∈ l.take (takeRun rep l), wordChar c = true := by
  intro l
  induction l with
  | nil => intro c hc; simp at hc
  | cons d ds ih =>
    intro c hc
    unfold takeRun at hc
    split_ifs at hc with hd
    · simp only [List.take_succ_cons, List.mem_cons] at hc
      rcases hc with hc | hc
      · subst hc; exact wordChar_of_charCI hrep hd
      · exact ih c hc
    · simp at hc

lemma altMatch_spec {pfx : List Char} {rep : Char} {suf : List Char} {L : Nat}
    (hpfx : ∀ p ∈ pfx, wordChar p = true) (hrep : wordChar rep = true)
    (h : altMatch pfx rep suf = some L) :
    0 < L ∧ L ≤ suf.length ∧ ∀ c ∈ suf.take L, wordChar c = true := by
  unfold altMatch at h
  split_ifs at h with h1 h2
  · injection h with hL
    obtain ⟨hk, _⟩ := h2
    have hple := matchPrefixCI_length_le h1
    have hkle := takeRun_le rep (suf.drop pfx.length)
    rw [List.length_drop] at hkle
    refine ⟨by omega, by omega, ?_⟩
    intro c hc
    rw [← hL, List.take_add] at hc
    rcases List.mem_append.mp hc with hc | hc
    · exact matchPrefixCI_wordChars hpfx h1 c hc
    · exact takeRun_wordChars hrep _ c hc

/-- The concrete per-character facts for the six alternatives of the
pattern: every matched character is a word character, the match is
non-empty and stays inside the text. -/
lemma matchLenAt_spec {cs : List Char} {i L : Nat} (h : matchLenAt cs i = some L) :
    0 < L ∧ i + L ≤ cs.length ∧ ∀ c ∈ (cs.drop i).take L, wordChar c = true := by
  unfold matchLenAt at h
  split_ifs at h with hb
  · have hdl : (cs.drop i).length = cs.length - i := List.length_drop i cs
    have key : 0 < L ∧ L ≤ (cs.drop i).length ∧
        ∀ c ∈ (cs.drop i).take L, wordChar c = true := by
      cases h1 : altMatch ['u'] 'm' (cs.drop i) with
      | some v =>
        rw [h1, Option.some_orElse] at h
        injection h with hv; subst hv
        exact altMatch_spec (by decide) (by decide) h1
      | none =>
      rw [h1, Option.none_orElse] at h
      cases h2 : altMatch ['u'] 'h' (cs.drop i) with
      | some v =>
        rw [h2, Option.some_orElse] at h
        injection h with hv; subst hv
        exact altMatch_spec (by decide) (by decide) h2
      | none =>
      rw [h2, Option.none_orElse] at h
      cases h3 : altMatch ['e'] 'r' (cs.drop i) with
      | some v =>
        rw [h3, Option.some_orElse] at h
        injection h with hv; subst hv
        exact altMatch_spec (by decide) (by decide) h3
      | none =>
      rw [h3, Option.none_orElse] at h
      cases h4 : altMatch ['e', 'r'] 'm' (cs.drop i) with
      | some v =>
        rw [h4, Option.some_orElse] at h
        injection h with hv; subst hv
        exact altMatch_spec (by decide) (by decide) h4
      | none =>
      rw [h4, Option.none_orElse] at h
      cases h5 : altMatch ['a'] 'h' (cs.drop i) with
      | some v =>
        rw [h5, Option.some_orElse] at h
        injection h with hv; subst hv
        exact altMatch_spec (by decide) (by decide) h5
      | none =>
      rw [h5, Option.none_orElse] at h
      exact altMatch_spec (by decide) (by decide) h
    obtain ⟨hpos, hle, hword⟩ := key
    have hil : i < cs.length := by omega
    exact ⟨hpos, by omega, hword⟩

/-- No match can start strictly inside another match: the character just
before such a position is a word character, so the opening `\b` fails. -/
lemma matchLenAt_none_inside {cs : List Char} {i L : Nat} (h : matchLenAt cs i = some L) :
    ∀ j, i < j → j < i + L → matchLenAt cs j = none := by
  obtain ⟨hpos, hle, hword⟩ := matchLenAt_spec h
  intro j hij hjL
  obtain ⟨j', rfl⟩ : ∃ j', j = j' + 1 := ⟨j - 1, by omega⟩
  have hj1 : j' < cs.length := by omega
  have hget : cs.get? j' = some (cs.get ⟨j', hj1⟩) := List.get?_eq_some.mpr ⟨hj1, rfl⟩
  have hmem : cs.get ⟨j', hj1⟩ ∈ (cs.drop i).take L := by
    have hgd : (cs.drop i).get? (j' - i) = cs.get? (i + (j' - i)) := List.get?_drop cs i _
    have hidx : i + (j' - i) = j' := by omega
    rw [hidx] at hgd
    have htk : ((cs.drop i).take L).get? (j' - i) = (cs.drop i).get? (j' - i) :=
      List.get?_take (by omega)
    apply List.get?_mem
    rw [htk, hgd, hget]
  have hwc : wordChar (cs.get ⟨j', hj1⟩) = true := hword _ hmem
  have hb : prevNonWord cs (j' + 1) = false := by
    simp only [prevNonWord]
    rw [hget]
    simpa using hwc
  unfold matchLenAt
  rw [hb]
  simp

/-! ### Facts about the finditer scan -/

lemma scanFillersAux_congr (cs : List Char) :
    ∀ f₁ f₂ i : Nat, cs.length - i < f₁ → cs.length - i < f₂ →
      scanFillersAux cs f₁ i = scanFillersAux cs f₂ i := by
  intro f₁
  induction f₁ with
  | zero => intro f₂ i h₁ _; omega
  | succ n ih =>
    intro f₂ i h₁ h₂
    cases f₂ with
    | zero => omega
    | succ m =>
      simp only [scanFillersAux]
      by_cases hi : i < cs.length
      · rw [if_pos hi, if_pos hi]
        cases hml : matchLenAt cs i with
        | none => exact ih m (i + 1) (by omega) (by omega)
        | some L =>
          dsimp only
          by_cases hL : L = 0
          · rw [if_pos hL, if_pos hL]
          · rw [if_neg hL, if_neg hL]
            have hLpos : 0 < L := Nat.pos_of_ne_zero hL
            rw [ih m (i + L) (by omega) (by omega)]
      · rw [if_neg hi, if_neg hi]

/-- The one-step unfolding of `scanFillers`, independent of the fuel. -/
lemma scanFillers_eq (cs : List Char) (i : Nat) :
    scanFillers cs i =
      if i < cs.length then
        match matchLenAt cs i with
        | some L =>
          if L = 0 then []
          else ⟨⟨(cs.drop i).take L⟩, i, (L : Int)⟩ :: scanFillers cs (i + L)
        | none => scanFillers cs (i + 1)
      else [] := by
  unfold scanFillers
  rcases Nat.lt_or_ge i (cs.length + 1) with hle | hgt
  · have hfuel : cs.length + 1 - i = (cs.length - i) + 1 := by omega
    rw [hfuel]
    simp only [scanFillersAux]
    by_cases hi : i < cs.length
    · rw [if_pos hi, if_pos hi]
      cases hml : matchLenAt cs i with
      | none => exact scanFillersAux_congr cs _ _ _ (by omega) (by omega)
      | some L =>
        dsimp only
        by_cases hL : L = 0
        · rw [if_pos hL, if_pos hL]
        · rw [if_neg hL, if_neg hL]
          have hLpos : 0 < L := Nat.pos_of_ne_zero hL
          obtain ⟨-, hiL, -⟩ := matchLenAt_spec hml
          congr 1
          exact scanFillersAux_congr cs _ _ _ (by omega) (by omega)
    · rw [if_neg hi, if_neg hi]
  · have h0 : cs.length + 1 - i = 0 := by omega
    have hi : ¬ i < cs.length := by omega
    rw [h0, if_neg hi]
    rfl

/-- Every span emitted by the scan from position `i` records an actual
pattern match: its position is ≥ `i`, its length is the positive match
length at its position, and its word is the matched slice of the text. -/
lemma scanFillers_mem (cs : List Char) :
    ∀ n i f, cs.length - i ≤ n → f ∈ scanFillers cs i →
      i ≤ f.position ∧ ∃ L : Nat, 0 < L ∧ f.length = (L : Int) ∧
        matchLenAt cs f.position = some L ∧ f.word = ⟨(cs.drop f.position).take L⟩ := by
  intro n
  induction n with
  | zero =>
    intro i f hn hf
    rw [scanFillers_eq] at hf
    have hi : ¬ i < cs.length := by omega
    rw [if_neg hi] at hf
    exact absurd hf (by simp)
  | succ m ih =>
    intro i f hn hf
    rw [scanFillers_eq] at hf
    by_cases hi : i < cs.length
    · rw [if_pos hi] at hf
      cases hml : matchLenAt cs i with
      | none =>
        rw [hml] at hf
        have := ih (i + 1) f (by omega) hf
        exact ⟨by omega, this.2⟩
      | some L =>
        rw [hml] at hf
        dsimp only at hf
        have hLpos : 0 < L := (matchLenAt_spec hml).1
        have hL : ¬ L = 0 := by omega
        rw [if_neg hL] at hf
        rcases List.mem_cons.mp hf with hf | hf
        · subst hf
          exact ⟨le_refl i, L, hLpos, rfl, hml, rfl⟩
        · have := ih (i + L) f (by omega) hf
          exact ⟨by omega, this.2⟩
    · rw [if_neg hi] at hf
      exact absurd hf (by simp)

/-- The scan's output is sorted by position and the spans are pairwise
separated: each span starts no earlier than the end of any earlier one. -/
lemma scanFillers_pairwise (cs : List Char) :
    ∀ n i, cs.length - i ≤ n →
      List.Pairwise (fun a b : Filler =>
        a.position ≤ b.position ∧ (a.position : Int) + a.length ≤ (b.position : Int))
        (scanFillers cs i) := by
  intro n
  induction n with
  | zero =>
    intro i hn
    rw [scanFillers_eq]
    have hi : ¬ i < cs.length := by omega
    rw [if_neg hi]
    exact List.Pairwise.nil
  | succ m ih =>
    intro i hn
    rw [scanFillers_eq]
    by_cases hi : i < cs.length
    · rw [if_pos hi]
      cases hml : matchLenAt cs i with
      | none => exact ih (i + 1) (by omega)
      | some L =>
        dsimp only
        have hLpos : 0 < L := (matchLenAt_spec hml).1
        have hL : ¬ L = 0 := by omega
        rw [if_neg hL]
        refine List.Pairwise.cons ?_ (ih (i + L) (by omega))
        intro g hg
        have hlen : cs.length - (i + L) ≤ m := by omega
        have hgs := scanFillers_mem cs m (i + L) g hlen hg
        constructor
        · show i ≤ g.position
          omega
        · show (i : Int) + (L : Int) ≤ (g.position : Int)
          exact_mod_cast hgs.1
    · rw [if_neg hi]
      exact List.Pairwise.nil

/-- The positions emitted by the scan from `i` are exactly the positions
`≥ i` at which the pattern matches, in increasing order: the scan is
exhaustive and duplicates nothing. -/
lemma scanFillers_positions (cs : List Char) :
    ∀ n i, cs.length - i ≤ n →
      (scanFillers cs i).map Filler.position =
        (List.Ico i cs.length).filter (fun j => (matchLenAt cs j).isSome) := by
  intro n
  induction n with
  | zero =>
    intro i hn
    rw [scanFillers_eq]
    have hi : ¬ i < cs.length := by omega
    rw [if_neg hi]
    have : List.Ico i cs.length = [] := List.Ico.eq_nil_of_le (by omega)
    rw [this]
    rfl
  | succ m ih =>
    intro i hn
    rw [scanFillers_eq]
    by_cases hi : i < cs.length
    · rw [List.Ico.eq_cons hi]
      by_cases hs : (matchLenAt cs i).isSome
      · obtain ⟨L, hml⟩ := Option.isSome_iff_exists.mp hs
        rw [hml]
        dsimp only
        have hspec := matchLenAt_spec hml
        have hL : ¬ L = 0 := by omega
        rw [if_neg hL, if_pos hi]
        simp only [List.map_cons]
        rw [List.filter_cons_of_pos (by simp [hml])]
        congr 1
        have hsplit : List.Ico (i + 1) cs.length =
            List.Ico (i + 1) (i + L) ++ List.Ico (i + L) cs.length :=
          (List.Ico.append_consecutive (by omega) (by omega)).symm
        rw [hsplit, List.filter_append]
        have hnone : (List.Ico (i + 1) (i + L)).filter
            (fun j => (matchLenAt cs j).isSome) = [] := by
          rw [List.filter_eq_nil_iff]
          intro j hj
          have hmem := List.Ico.mem.mp hj
          rw [matchLenAt_none_inside hml j (by omega) (by omega)]
          simp
        rw [hnone, List.nil_append]
        exact ih (i + L) (by omega)
      · have hml : matchLenAt cs i = none := Option.not_isSome_iff_eq_none.mp hs
        rw [hml, if_pos hi]
        rw [List.filter_cons_of_neg (by simp [hml])]
        exact ih (i + 1) (by omega)
    · rw [if_neg hi]
      have : List.Ico i cs.length = [] := List.Ico.eq_nil_of_le (by omega)
      rw [this]
      rfl

/-! ### Facts about the detector pipeline -/

lemma regexHesitationFillers_mem {text : String} {f : Filler}
    (hf : f ∈ regexHesitationFillers text) :
    ∃ L : Nat, 0 < L ∧ f.length = (L : Int) ∧ matchLenAt text.data f.position = some L ∧
      f.word = ⟨(text.data.drop f.position).take L⟩ ∧ f.position + L ≤ text.data.length := by
  obtain ⟨-, L, hLpos, hlen, hml, hword⟩ :=
    scanFillers_mem text.data text.data.length 0 f (by omega) hf
  obtain ⟨-, hle, -⟩ := matchLenAt_spec hml
  exact ⟨L, hLpos, hlen, hml, hword, hle⟩

lemma regexHesitationFillers_pairwise (text : String) :
    List.Pairwise (fun a b : Filler =>
      a.position ≤ b.position ∧ (a.position : Int) + a.length ≤ (b.position : Int))
      (regexHesitationFillers text) :=
  scanFillers_pairwise text.data text.data.length 0 (by omega)

lemma regexHesitationFillers_pos_strict (text : String) :
    List.Pairwise (fun a b : Filler => a.position < b.position)
      (regexHesitationFillers text) := by
  refine (regexHesitationFillers_pairwise text).imp_of_mem ?_
  intro a b ha _ hab
  obtain ⟨L, hLpos, hlen, -, -, -⟩ := regexHesitationFillers_mem ha
  have h2 := hab.2
  rw [hlen] at h2
  have : (a.position : Int) + 1 ≤ (b.position : Int) := by
    have : (1 : Int) ≤ (L : Int) := by exact_mod_cast hLpos
    linarith
  exact_mod_cast by linarith [this]

lemma foldl_merge_append :
    ∀ (spans acc : List Filler),
      (∀ f ∈ spans, ∀ g ∈ acc, g.position ≠ f.position) →
      List.Pairwise (fun a b : Filler => a.position ≠ b.position) spans →
      spans.foldl (fun acc f => if hasKey acc f then acc else acc ++ [f]) acc =
        acc ++ spans := by
  intro spans
  induction spans with
  | nil => intro acc _ _; simp
  | cons f rest ih =>
    intro acc hdisj hpw
    have hk : hasKey acc f = false := by
      unfold hasKey
      rw [List.any_eq_false]
      intro g hg
      simp only [Bool.and_eq_true, beq_iff_eq, not_and]
      intro h1
      exact absurd h1 (hdisj f (List.mem_cons_self f rest) g hg)
    simp only [List.foldl_cons, hk, Bool.false_eq_true, if_false]
    rw [ih (acc ++ [f]) ?_ hpw.of_cons]
    · simp
    · intro f' hf' g hg
      rcases List.mem_append.mp hg with hg | hg
      · exact hdisj f' (List.mem_cons_of_mem f hf') g hg
      · have : g = f := by simpa using hg
        subst this
        exact List.rel_of_pairwise_cons hpw hf'

lemma mergeRegex_nil {spans : List Filler}
    (h : List.Pairwise (fun a b : Filler => a.position ≠ b.position) spans) :
    mergeRegex [] spans = spans := by
  unfold mergeRegex
  rw [foldl_merge_append spans [] (by intro f _ g hg; simp at hg) h]
  simp

lemma mem_mergeRegex {validated spans : List Filler} {x : Filler}
    (hx : x ∈ mergeRegex validated spans) : x ∈ validated ∨ x ∈ spans := by
  unfold mergeRegex at hx
  suffices h : ∀ (spans acc : List Filler),
      x ∈ spans.foldl (fun acc f => if hasKey acc f then acc else acc ++ [f]) acc →
      x ∈ acc ∨ x ∈ spans by
    exact h spans validated hx
  intro spans
  induction spans with
  | nil => intro acc hx; exact Or.inl hx
  | cons f rest ih =>
    intro acc hx
    simp only [List.foldl_cons] at hx
    rcases ih _ hx with hacc | hrest
    · by_cases hk : hasKey acc f
      · rw [if_pos hk] at hacc
        exact Or.inl hacc
      · rw [if_neg hk] at hacc
        rcases List.mem_append.mp hacc with h | h
        · exact Or.inl h
        · exact Or.inr (by simpa using Or.inl (by simpa using h))
    · exact Or.inr (List.mem_cons_of_mem f hrest)

lemma resolveOverlaps_sublist : ∀ (l : List Filler) (e : Int),
    List.Sublist (resolveOverlaps l e) l := by
  intro l
  induction l with
  | nil => intro e; exact List.Sublist.refl []
  | cons f rest ih =>
    intro e
    unfold resolveOverlaps
    split_ifs with he
    · exact List.Sublist.cons₂ f (ih _)
    · exact List.Sublist.cons f (ih _)

lemma resolveOverlaps_mem_ge : ∀ (l : List Filler) (e : Int),
    List.Pairwise (fun a b : Filler => a.position ≤ b.position) l →
    ∀ g ∈ resolveOverlaps l e, e ≤ (g.position : Int) := by
  intro l
  induction l with
  | nil => intro e _ g hg; exact absurd hg (by simp [resolveOverlaps])
  | cons f rest ih =>
    intro e hpw g hg
    unfold resolveOverlaps at hg
    split_ifs at hg with he
    · rcases List.mem_cons.mp hg with hg | hg
      · subst hg; exact he
      · have hmem : g ∈ rest := (resolveOverlaps_sublist rest _).subset hg
        have : f.position ≤ g.position := List.rel_of_pairwise_cons hpw hmem
        have : (f.position : Int) ≤ (g.position : Int) := by exact_mod_cast this
        linarith
    · exact ih e hpw.of_cons g hg

lemma resolveOverlaps_pairwise : ∀ (l : List Filler) (e : Int),
    List.Pairwise (fun a b : Filler => a.position ≤ b.position) l →
    List.Pairwise (fun a b : Filler =>
      a.position ≤ b.position ∧ (a.position : Int) + a.length ≤ (b.position : Int))
      (resolveOverlaps l e) := by
  intro l
  induction l with
  | nil => intro e _; exact List.Pairwise.nil
  | cons f rest ih =>
    intro e hpw
    unfold resolveOverlaps
    split_ifs with he
    · refine List.Pairwise.cons ?_ (ih _ hpw.of_cons)
      intro g hg
      have hmem : g ∈ rest := (resolveOverlaps_sublist rest _).subset hg
      refine ⟨List.rel_of_pairwise_cons hpw hmem, ?_⟩
      exact resolveOverlaps_mem_ge rest _ hpw.of_cons g hg
    · exact ih _ hpw.of_cons

lemma resolveOverlaps_eq_self : ∀ (l : List Filler) (e : Int),
    List.Pairwise (fun a b : Filler => (a.position : Int) + a.length ≤ (b.position : Int)) l →
    (∀ f ∈ l.head?, e ≤ (f.position : Int)) →
    resolveOverlaps l e = l := by
  intro l
  induction l with
  | nil => intro e _ _; rfl
  | cons f rest ih =>
    intro e hpw hhead
    have he : e ≤ (f.position : Int) := hhead f rfl
    unfold resolveOverlaps
    rw [if_pos he]
    congr 1
    refine ih _ hpw.of_cons ?_
    intro g hg
    exact List.rel_of_pairwise_cons hpw (List.mem_of_mem_head? hg)

lemma validateFillers_nil (cs : List Char) : validateFillers cs [] = [] := rfl

lemma validateFillers_mem {cs : List Char} {raw : List RawFiller} {f : Filler}
    (hf : f ∈ validateFillers cs raw) :
    f.position < cs.length ∧
      ciOverlap (stripWS (pySlice cs f.position ((f.position : Int) + f.length)))
        f.word.data := by
  obtain ⟨r, _, hv⟩ := List.mem_filterMap.mp hf
  unfold validateFiller at hv
  split_ifs at hv with h1 h2
  · injection hv with hv
    subst hv
    have hcast : ((r.position.toNat : Nat) : Int) = r.position := Int.toNat_of_nonneg h1.1
    constructor
    · show r.position.toNat < cs.length
      have h2 := h1.2
      omega
    · show ciOverlap (stripWS (pySlice cs r.position.toNat
          ((r.position.toNat : Int) + r.length.getD (r.word.length : Int)))) r.word.data
      rw [hcast]
      exact h2

lemma stripWS_eq_self {l : List Char} (h : ∀ c ∈ l, wordChar c = true) :
    stripWS l = l := by
  unfold stripWS
  have h1 : l.dropWhile spaceChar = l := by
    rw [List.dropWhile_eq_self_iff]
    intro hl
    rw [spaceChar_eq_false_of_wordChar (h _ (List.get_mem l 0 hl))]
    simp
  rw [h1]
  have h2 : l.reverse.dropWhile spaceChar = l.reverse := by
    rw [List.dropWhile_eq_self_iff]
    intro hl
    have hm : l.reverse.get ⟨0, hl⟩ ∈ l := List.mem_reverse.mp (List.get_mem _ 0 hl)
    rw [spaceChar_eq_false_of_wordChar (h _ hm)]
    simp
  rw [h2, List.reverse_reverse]

lemma pySlice_take_drop {cs : List Char} {pos L : Nat} (h : pos + L ≤ cs.length) :
    pySlice cs pos ((pos : Int) + (L : Int)) = (cs.drop pos).take L := by
  unfold pySlice
  have hb : ¬ ((pos : Int) + (L : Int) < 0) := by omega
  rw [if_neg hb]
  have hmin : min ((pos : Int) + (L : Int)) ((cs.length : Nat) : Int) =
      (pos : Int) + (L : Int) := min_eq_left (by exact_mod_cast h)
  rw [hmin]
  have htn : ((pos : Int) + (L : Int)).toNat = pos + L := by omega
  rw [htn, List.drop_take]
  congr 1
  omega

/-- A span produced by the deterministic pass is its own exact slice of the
text, and the validation predicate of the AI pass holds of it. -/
lemma regex_span_valid {text : String} {f : Filler} (hf : f ∈ regexHesitationFillers text) :
    f.position < text.length ∧
      ciOverlap (stripWS (pySlice text.data f.position ((f.position : Int) + f.length)))
        f.word.data := by
  obtain ⟨L, hLpos, hlen, hml, hword, hle⟩ := regexHesitationFillers_mem hf
  obtain ⟨-, -, hchars⟩ := matchLenAt_spec hml
  have hslice : pySlice text.data f.position ((f.position : Int) + f.length) =
      (text.data.drop f.position).take L := by
    rw [hlen]
    exact pySlice_take_drop hle
  constructor
  · show f.position < text.data.length
    omega
  · rw [hslice, stripWS_eq_self hchars, hword]
    exact Or.inl ⟨[], [], by simp⟩

/-- Membership in the full detector output factors through the validated
AI spans or the deterministic spans. -/
lemma detectCore_mem {text : String} {raw : List RawFiller} {f : Filler}
    (hf : f ∈ detectCore text raw) :
    f ∈ validateFillers text.data raw ∨ f ∈ regexHesitationFillers text := by
  unfold detectCore at hf
  have h1 : f ∈ List.insertionSort posLE
      (mergeRegex (validateFillers text.data raw) (regexHesitationFillers text)) :=
    (resolveOverlaps_sublist _ _).subset hf
  have h2 := (List.mem_insertionSort posLE).mp h1
  exact mem_mergeRegex h2

/-! ### Uniqueness of strictly descending orderings (for C9) -/

lemma eq_of_perm_of_strictDesc :
    ∀ {l₁ l₂ : List Filler}, l₁.Perm l₂ →
      List.Pairwise (fun a b : Filler => b.position < a.position) l₁ →
      List.Pairwise (fun a b : Filler => b.position < a.position) l₂ →
      l₁ = l₂ := by
  intro l₁
  induction l₁ with
  | nil =>
    intro l₂ hperm _ _
    exact (List.Perm.nil_eq hperm).symm ▸ rfl
  | cons a t₁ ih =>
    intro l₂ hperm h₁ h₂
    cases l₂ with
    | nil => exact absurd hperm.symm (by simp)
    | cons b t₂ =>
      by_cases hab : a = b
      · subst hab
        rw [ih (hperm.cons_inv) h₁.of_cons h₂.of_cons]
      · exfalso
        have ha : a ∈ b :: t₂ := hperm.subset (List.mem_cons_self a t₁)
        have hb : b ∈ a :: t₁ := hperm.symm.subset (List.mem_cons_self b t₂)
        have ha' : a ∈ t₂ := by
          rcases List.mem_cons.mp ha with h | h
          · exact absurd h hab
          · exact h
        have hb' : b ∈ t₁ := by
          rcases List.mem_cons.mp hb with h | h
          · exact absurd h.symm hab
          · exact h
        have h1 : a.position < b.position := List.rel_of_pairwise_cons h₂ ha'
        have h2 : b.position < a.position := List.rel_of_pairwise_cons h₁ hb'
        omega

/-! ## Claim theorems -/

/-- Claim C1: the composite `confidence_score` is the 2-decimal rounding of
`0.25·wpm_score + 0.25·filler_score + 0.20·pause_score +
0.15·hesitation_score + 0.15·fluency_score` (components unrounded, as the
code computes it), every component field is its 2-decimal rounding, the
`overall_rating` follows the 90/75/58/42 threshold ladder on the composite,
and the specific input `wpm=140, filler_count=0, pause_ratio=0,
hesitation_rate=0, fluency_score=100` (any word/pause/hesitation counters)
yields all scores `100` and the rating `"Excellent"`. -/
theorem c1_confidence_score_spec (wpm : ℚ)
    (filler_count word_count total_pauses total_hesitations : Nat)
    (pause_ratio hesitation_rate fluency_score : ℚ) (recs : List String) :
    (calculateConfidenceScore wpm filler_count word_count total_pauses total_hesitations
        pause_ratio hesitation_rate fluency_score recs).confidence_score =
      round2 (0.25 * wpmScore wpm + 0.25 * fillerScoreOf (fillersPer100 filler_count word_count) +
        0.20 * pauseScoreOf pause_ratio + 0.15 * hesitationScoreOf hesitation_rate +
        0.15 * fluency_score) ∧
    (calculateConfidenceScore wpm filler_count word_count total_pauses total_hesitations
        pause_ratio hesitation_rate fluency_score recs).wpm_score = round2 (wpmScore wpm) ∧
    (calculateConfidenceScore wpm filler_count word_count total_pauses total_hesitations
        pause_ratio hesitation_rate fluency_score recs).filler_score =
      round2 (fillerScoreOf (fillersPer100 filler_count word_count)) ∧
    (calculateConfidenceScore wpm filler_count word_count total_pauses total_hesitations
        pause_ratio hesitation_rate fluency_score recs).pause_score =
      round2 (pauseScoreOf pause_ratio) ∧
    (calculateConfidenceScore wpm filler_count word_count total_pauses total_hesitations
        pause_ratio hesitation_rate fluency_score recs).hesitation_score =
      round2 (hesitationScoreOf hesitation_rate) ∧
    ((calculateConfidenceScore wpm filler_count word_count total_pauses total_hesitations
        pause_ratio hesitation_rate fluency_score recs).overall_rating = "Excellent" ↔
      90 ≤ rawConfidence (wpmScore wpm) (fillerScoreOf (fillersPer100 filler_count word_count))
        (pauseScoreOf pause_ratio) (hesitationScoreOf hesitation_rate) fluency_score) ∧
    ((calculateConfidenceScore wpm filler_count word_count total_pauses total_hesitations
        pause_ratio hesitation_rate fluency_score recs).overall_rating = "Good" ↔
      75 ≤ rawConfidence (wpmScore wpm) (fillerScoreOf (fillersPer100 filler_count word_count))
        (pauseScoreOf pause_ratio) (hesitationScoreOf hesitation_rate) fluency_score ∧
      rawConfidence (wpmScore wpm) (fillerScoreOf (fillersPer100 filler_count word_count))
        (pauseScoreOf pause_ratio) (hesitationScoreOf hesitation_rate) fluency_score < 90) ∧
    ((calculateConfidenceScore wpm filler_count word_count total_pauses total_hesitations
        pause_ratio hesitation_rate fluency_score recs).overall_rating = "Moderate" ↔
      58 ≤ rawConfidence (wpmScore wpm) (fillerScoreOf (fillersPer100 filler_count word_count))
        (pauseScoreOf pause_ratio) (hesitationScoreOf hesitation_rate) fluency_score ∧
      rawConfidence (wpmScore wpm) (fillerScoreOf (fillersPer100 filler_count word_count))
        (pauseScoreOf pause_ratio) (hesitationScoreOf hesitation_rate) fluency_score < 75) ∧
    ((calculateConfidenceScore wpm filler_count word_count total_pauses total_hesitations
        pause_ratio hesitation_rate fluency_score recs).overall_rating = "Low" ↔
      42 ≤ rawConfidence (wpmScore wpm) (fillerScoreOf (fillersPer100 filler_count word_count))
        (pauseScoreOf pause_ratio) (hesitationScoreOf hesitation_rate) fluency_score ∧
      rawConfidence (wpmScore wpm) (fillerScoreOf (fillersPer100 filler_count word_count))
        (pauseScoreOf pause_ratio) (hesitationScoreOf hesitation_rate) fluency_score < 58) ∧
    ((calculateConfidenceScore wpm filler_count word_count total_pauses total_hesitations
        pause_ratio hesitation_rate fluency_score recs).overall_rating = "Very Low" ↔
      rawConfidence (wpmScore wpm) (fillerScoreOf (fillersPer100 filler_count word_count))
        (pauseScoreOf pause_ratio) (hesitationScoreOf hesitation_rate) fluency_score < 42) ∧
    calculateConfidenceScore 140 0 word_count total_pauses total_hesitations 0 0 100 recs =
      ⟨100, 100, 100, 100, 100, "Excellent", recs⟩ := by
  have hw : wpmScore 140 = 100 := by unfold wpmScore; norm_num
  have hffp : fillersPer100 0 word_count = 0 := fillersPer100_zero _
  have hf : fillerScoreOf 0 = 100 := by unfold fillerScoreOf; norm_num
  have hp : pauseScoreOf 0 = 100 := by unfold pauseScoreOf; norm_num
  have hh : hesitationScoreOf 0 = 100 := by unfold hesitationScoreOf; norm_num
  have hc : rawConfidence 100 100 100 100 100 = 100 := by unfold rawConfidence; norm_num
  have hr : round2 (100 : ℚ) = 100 := by exact_mod_cast round2_intCast 100
  have hrat : overallRating (100 : ℚ) = "Excellent" :=
    (overallRating_excellent_iff 100).mpr (by norm_num)
  refine ⟨?_, rfl, rfl, rfl, rfl, overallRating_excellent_iff _, overallRating_good_iff _,
    overallRating_moderate_iff _, overallRating_low_iff _, overallRating_very_low_iff _, ?_⟩
  · show round2 (rawConfidence _ _ _ _ _) = _
    congr 1
    unfold rawConfidence
    ring
  · simp only [calculateConfidenceScore, hffp, hw, hf, hp, hh, hc, hr, hrat]

/-- Claim C5: the off-topic replacement of the score bundle halves every
numeric score and caps it (composite at 40, components at 50, each then
2-decimal rounded), forces the rating `"Low"`, and substitutes the two
fixed topic-referencing recommendations; consequently the returned
composite never exceeds 40 and the components never exceed 50. -/
theorem c5_off_topic_penalty_spec (title : String) (cd : ScoreBundle) :
    (applyOffTopicPenalty title cd).confidence_score = round2 (min (cd.confidence_score * 0.5) 40) ∧
    (applyOffTopicPenalty title cd).wpm_score = round2 (min (cd.wpm_score * 0.5) 50) ∧
    (applyOffTopicPenalty title cd).filler_score = round2 (min (cd.filler_score * 0.5) 50) ∧
    (applyOffTopicPenalty title cd).pause_score = round2 (min (cd.pause_score * 0.5) 50) ∧
    (applyOffTopicPenalty title cd).hesitation_score = round2 (min (cd.hesitation_score * 0.5) 50) ∧
    (applyOffTopicPenalty title cd).confidence_score ≤ 40 ∧
    (applyOffTopicPenalty title cd).wpm_score ≤ 50 ∧
    (applyOffTopicPenalty title cd).filler_score ≤ 50 ∧
    (applyOffTopicPenalty title cd).pause_score ≤ 50 ∧
    (applyOffTopicPenalty title cd).hesitation_score ≤ 50 ∧
    (applyOffTopicPenalty title cd).overall_rating = "Low" ∧
    (applyOffTopicPenalty title cd).recommendations = [offTopicRec1 title, offTopicRec2] := by
  refine ⟨rfl, rfl, rfl, rfl, rfl, ?_, ?_, ?_, ?_, ?_, rfl, rfl⟩
  · have h := round2_le_intCast (min (cd.confidence_score * 0.5) 40) 40
      (by exact_mod_cast min_le_right (cd.confidence_score * 0.5) 40)
    exact_mod_cast h
  · have h := round2_le_intCast (min (cd.wpm_score * 0.5) 50) 50
      (by exact_mod_cast min_le_right (cd.wpm_score * 0.5) 50)
    exact_mod_cast h
  · have h := round2_le_intCast (min (cd.filler_score * 0.5) 50) 50
      (by exact_mod_cast min_le_right (cd.filler_score * 0.5) 50)
    exact_mod_cast h
  · have h := round2_le_intCast (min (cd.pause_score * 0.5) 50) 50
      (by exact_mod_cast min_le_right (cd.pause_score * 0.5) 50)
    exact_mod_cast h
  · have h := round2_le_intCast (min (cd.hesitation_score * 0.5) 50) 50
      (by exact_mod_cast min_le_right (cd.hesitation_score * 0.5) 50)
    exact_mod_cast h

/-- Counterexample to claim C2 as stated: a transcription reply carrying
both a timed-segment list (speaking time 5) and a top-level duration (3)
resolves to the top-level duration 3, not to the segment sum 5 — the code
prefers the top-level duration, the opposite of the claimed priority. -/
theorem c2_counterexample :
    speakingTotal [⟨0, 5⟩] = 5 ∧
    resolveDurationSeconds (some 3) (some [⟨0, 5⟩]) = 3 ∧ (3 : ℚ) ≠ 5 := by
  refine ⟨?_, ?_, by norm_num⟩
  · simp [speakingTotal]
  · simp only [resolveDurationSeconds, speakingTotal]
    norm_num

/-- Claim C2 (amended): for a reply carrying both a segment list and a
top-level duration field, the resolution priority is: the top-level
duration if strictly positive, else the sum of `max(0, end - start)` over
the segments if strictly positive, else (for a non-empty segment list) the
maximum segment end, else 0. -/
theorem c2_duration_priority (d : ℚ) (segs : List Segment) :
    resolveDurationSeconds (some d) (some segs) =
      if 0 < d then d
      else if 0 < speakingTotal segs then speakingTotal segs
      else if segs = [] then 0 else maxEnd segs := by
  simp only [resolveDurationSeconds]
  by_cases hd : 0 < d
  · have hd' : ¬ d ≤ 0 := not_le.mpr hd
    simp [hd, hd']
  · have hd0 : d ≤ 0 := not_lt.mp hd
    rcases eq_or_ne segs [] with hs | hs
    · subst hs
      simp [hd, hd0, speakingTotal]
    · by_cases ht : 0 < speakingTotal segs
      · have ht' : ¬ speakingTotal segs ≤ 0 := not_le.mpr ht
        simp [hd, hd0, hs, ht, ht']
      · have ht0 : speakingTotal segs ≤ 0 := not_lt.mp ht
        simp [hd, hd0, hs, ht, ht0]

/-- Counterexample to claim C4 as stated: a classification reply that does
not start with `"YES"` (here `"NO"`) makes `is_relevant` return `false`,
not `true` as the claim asserts. -/
theorem c4_counterexample :
    startsWith ['Y', 'E', 'S'] ((stripWS ("NO" : String).data).map upperChar) = false ∧
    checkAnswerRelevance "T" "hello" (some (some "NO")) = false := by
  decide

/-- Claim C4 (amended): `is_relevant` returns `true` exactly when the title
is empty, the stripped transcript is blank, the capability call failed
(fail open), or the stripped upper-cased reply starts with `"YES"`; in
particular any other non-"YES"-prefixed reply yields `false`.  The
function is total (it always returns a boolean). -/
theorem c4_relevance_spec (title userText : String) (reply : Option (Option String)) :
    checkAnswerRelevance title userText reply = true ↔
      (title.data = [] ∨ stripWS userText.data = [] ∨ reply = none ∨
        ∃ content, reply = some content ∧
          startsWith ['Y', 'E', 'S'] ((stripWS (content.getD "").data).map upperChar) = true) := by
  unfold checkAnswerRelevance
  split_ifs with h
  · simp only [eq_self_iff_true, true_iff]
    rcases h with h | h
    · exact Or.inl h
    · exact Or.inr (Or.inl h)
  · push_neg at h
    obtain ⟨h1, h2⟩ := h
    cases reply with
    | none => simp
    | some c =>
      constructor
      · intro hh
        exact Or.inr (Or.inr (Or.inr ⟨c, rfl, hh⟩))
      · rintro (hc | hc | hc | ⟨c', hc', hh⟩)
        · exact absurd hc h1
        · exact absurd hc h2
        · exact absurd hc (by simp)
        · injection hc' with hcc
          subst hcc
          exact hh

/-- Claim C8: on `"um I was um in the mall um today"` the deterministic
pass finds exactly the three `"um"` spans at offsets 0, 9 and 24, and
removing them yields `"I was in the mall today"` with single spaces and no
leading or trailing whitespace. -/
theorem c8_um_mall_scenario :
    regexHesitationFillers "um I was um in the mall um today" =
      [⟨"um", 0, 2⟩, ⟨"um", 9, 2⟩, ⟨"um", 24, 2⟩] ∧
    removeFillerWords "um I was um in the mall um today"
      [⟨"um", 0, 2⟩, ⟨"um", 9, 2⟩, ⟨"um", 24, 2⟩] = "I was in the mall today" := by
  decide

/-- Counterexample to claim C3 as stated: when the capability call itself
fails, the detector returns the empty list, not the deterministic-pass
spans (which are non-empty for `"um"`). -/
theorem c3_counterexample :
    detectFillerWords "um" GptOutcome.failure = [] ∧
    regexHesitationFillers "um" = [⟨"um", 0, 2⟩] := by
  decide

/-- Counterexample to claim C7 as stated: `"um uh"` contains exactly one
disjoint word-bounded occurrence of `"um"`, yet the deterministic pass
returns two spans (the hesitation family is larger than `um`). -/
theorem c7_counterexample :
    umOccurrenceCount "um uh" = 1 ∧ (regexHesitationFillers "um uh").length = 2 := by
  decide

/-- Counterexample to claim C9 as stated: two spans sharing a position but
differing in length are processed in input order by the stable descending
sort, and the whitespace collapsing between removals makes the two orders
produce different texts (`"x"` vs `"xy"`). -/
theorem c9_counterexample :
    ([⟨"", 1, 1⟩, ⟨"", 1, 2⟩] : List Filler).Perm [⟨"", 1, 2⟩, ⟨"", 1, 1⟩] ∧
    removeFillerWords "x   y" [⟨"", 1, 1⟩, ⟨"", 1, 2⟩] = "x" ∧
    removeFillerWords "x   y" [⟨"", 1, 2⟩, ⟨"", 1, 1⟩] = "xy" := by
  decide

/-- Claim C3 (amended): when the AI reply is unparseable (no filler list
can be recovered) the detector degrades to exactly the deterministic-pass
spans; when the capability call itself raises, the detector returns the
empty list (not the deterministic spans).  Both paths return normally. -/
theorem c3_failure_semantics (text : String) :
    detectFillerWords text GptOutcome.unparseable = regexHesitationFillers text ∧
    detectFillerWords text GptOutcome.failure = [] := by
  constructor
  · show detectCore text [] = regexHesitationFillers text
    unfold detectCore
    rw [validateFillers_nil]
    rw [mergeRegex_nil ((regexHesitationFillers_pos_strict text).imp
      (fun h => Nat.ne_of_lt h))]
    have hsorted : List.Sorted posLE (regexHesitationFillers text) :=
      (regexHesitationFillers_pairwise text).imp (fun h => h.1)
    rw [List.Sorted.insertionSort_eq hsorted]
    apply resolveOverlaps_eq_self
    · exact (regexHesitationFillers_pairwise text).imp (fun h => h.2)
    · intro f _
      have h0 : (0 : Int) ≤ (f.position : Int) := Int.natCast_nonneg _
      linarith
  · rfl

/-- Claim C6: for every text and every AI outcome the detector's output is
sorted by position (non-decreasing) and pairwise non-overlapping: every
span starts at or after the end offset `position + length` of each earlier
span, exactly as the greedy left-to-right scan guarantees. -/
theorem c6_detector_sorted_nonoverlapping (text : String) (gpt : GptOutcome) :
    List.Pairwise (fun a b : Filler => a.position ≤ b.position)
      (detectFillerWords text gpt) ∧
    List.Pairwise (fun a b : Filler => (a.position : Int) + a.length ≤ (b.position : Int))
      (detectFillerWords text gpt) := by
  have core : ∀ raw : List RawFiller,
      List.Pairwise (fun a b : Filler =>
        a.position ≤ b.position ∧ (a.position : Int) + a.length ≤ (b.position : Int))
        (detectCore text raw) := by
    intro raw
    unfold detectCore
    apply resolveOverlaps_pairwise
    exact List.sorted_insertionSort posLE
      (mergeRegex (validateFillers text.data raw) (regexHesitationFillers text))
  cases gpt with
  | failure => exact ⟨List.Pairwise.nil, List.Pairwise.nil⟩
  | unparseable => exact ⟨(core []).imp (fun h => h.1), (core []).imp (fun h => h.2)⟩
  | parsed raw => exact ⟨(core raw).imp (fun h => h.1), (core raw).imp (fun h => h.2)⟩

/-- Claim C7 (amended): the deterministic pass is exhaustive for the whole
hesitation family: it returns exactly one span per position at which the
pattern `\b(um+|uh+|er+|erm+|ah+|hmm+)\b` matches (so, exactly N spans for
a text whose only hesitation occurrences are its N word-bounded "um"s),
and every returned span delimits a substring of the text equal to its
reported word. -/
theorem c7_deterministic_pass_exhaustive (text : String) :
    (regexHesitationFillers text).length = hesitationMatchCount text ∧
    ∀ f ∈ regexHesitationFillers text,
      f.position + f.length.toNat ≤ text.length ∧
      (text.data.drop f.position).take f.length.toNat = f.word.data := by
  constructor
  · have hmap := scanFillers_positions text.data text.data.length 0 (by omega)
    have hlen := congrArg List.length hmap
    rw [List.length_map] at hlen
    unfold regexHesitationFillers hesitationMatchCount
    rw [← List.Ico.zero_bot]
    exact hlen
  · intro f hf
    obtain ⟨L, hLpos, hlen, hml, hword, hle⟩ := regexHesitationFillers_mem hf
    have htn : f.length.toNat = L := by rw [hlen]; exact Int.toNat_natCast L
    constructor
    · rw [htn]
      exact hle
    · rw [htn, hword]

/-- Witness for C7 (amended), on the text `"um"` and its single span. -/
theorem c7_witness :
    (regexHesitationFillers "um").length = hesitationMatchCount "um" ∧
    ((0 : Nat) + (2 : Int).toNat ≤ ("um" : String).length ∧
      (("um" : String).data.drop 0).take (2 : Int).toNat = ("um" : String).data) :=
  ⟨(c7_deterministic_pass_exhaustive "um").1,
   (c7_deterministic_pass_exhaustive "um").2 ⟨"um", 0, 2⟩ (by decide)⟩

/-- Claim C9 (amended): `remove_filler_words` is order-independent for
every span list whose positions are pairwise distinct (the internal sort by
descending position then has a unique result; ties in position are the one
exception, per the counterexample). -/
theorem c9_order_independence (text : String) (l₁ l₂ : List Filler)
    (hperm : l₁.Perm l₂) (hnd : (l₁.map Filler.position).Nodup) :
    removeFillerWords text l₁ = removeFillerWords text l₂ := by
  unfold removeFillerWords
  have strict : ∀ (l : List Filler), (l.map Filler.position).Nodup →
      List.Pairwise (fun a b : Filler => b.position < a.position)
        (List.insertionSort posGE l) := by
    intro l hndl
    have hsorted := List.sorted_insertionSort posGE l
    have hnds : ((List.insertionSort posGE l).map Filler.position).Nodup :=
      ((List.perm_insertionSort posGE l).map Filler.position).symm.nodup hndl
    have hne : List.Pairwise (fun a b : Filler => a.position ≠ b.position)
        (List.insertionSort posGE l) := List.pairwise_map.mp hnds
    exact (hsorted.and hne).imp (fun h => lt_of_le_of_ne h.1 h.2.symm)
  have hnd₂ : (l₂.map Filler.position).Nodup := (hperm.map Filler.position).nodup hnd
  have key : List.insertionSort posGE l₁ = List.insertionSort posGE l₂ :=
    eq_of_perm_of_strictDesc
      ((List.perm_insertionSort posGE l₁).trans
        (hperm.trans (List.perm_insertionSort posGE l₂).symm))
      (strict l₁ hnd) (strict l₂ hnd₂)
  rw [key]

/-- Witness for C9 (amended): two distinct-position spans in either order
produce the same cleaned text. -/
theorem c9_witness :
    removeFillerWords "abc" [⟨"a", 0, 1⟩, ⟨"b", 2, 1⟩] =
      removeFillerWords "abc" [⟨"b", 2, 1⟩, ⟨"a", 0, 1⟩] :=
  c9_order_independence "abc" _ _ (by decide) (by decide)

/-- Claim C10 (amended): every span the detector returns starts inside the
text (`position < len(text)`), and the stripped text slice
`text[position : position + length]` (clamped, as Python slicing clamps)
case-insensitively overlaps the reported word — one of the two, lowered, is
a substring of the other.  The end offset `position + length` itself may
exceed `len(text)`, per the counterexample. -/
theorem c10_span_validation (text : String) (gpt : GptOutcome) :
    ∀ f ∈ detectFillerWords text gpt,
      f.position < text.length ∧
      ciOverlap (stripWS (pySlice text.data f.position ((f.position : Int) + f.length)))
        f.word.data := by
  intro f hf
  cases gpt with
  | failure => exact absurd hf (by simp [detectFillerWords])
  | unparseable =>
    rcases detectCore_mem hf with hv | hr
    · rw [validateFillers_nil] at hv
      exact absurd hv (by simp)
    · exact regex_span_valid hr
  | parsed raw =>
    rcases detectCore_mem hf with hv | hr
    · exact validateFillers_mem hv
    · exact regex_span_valid hr

/-- Witness for C10 (amended), on the text `"um"` and its single span. -/
theorem c10_witness :
    ((⟨"um", 0, 2⟩ : Filler).position < ("um" : String).length) ∧
    ciOverlap (stripWS (pySlice ("um" : String).data (⟨"um", 0, 2⟩ : Filler).position
        (((⟨"um", 0, 2⟩ : Filler).position : Int) + (⟨"um", 0, 2⟩ : Filler).length)))
      (⟨"um", 0, 2⟩ : Filler).word.data :=
  c10_span_validation "um" GptOutcome.unparseable ⟨"um", 0, 2⟩ (by decide)

/-- Counterexample to claim C10 as stated: the validator only checks
`position < len(text)` and a case-insensitive overlap on the (clamped)
slice, so an AI span with `length = 100` on the 2-character text `"um"`
survives to the output with `position + length = 100 > 2`. -/
theorem c10_counterexample :
    detectFillerWords "um" (GptOutcome.parsed [⟨"um", 0, some 100⟩]) = [⟨"um", 0, 100⟩] ∧
    ¬ (((⟨"um", 0, 100⟩ : Filler).position : Int) + (⟨"um", 0, 100⟩ : Filler).length ≤
        (("um" : String).length : Int)) := by
  decide

end CoachAI
